import Mathlib

/-
Verification of the hierarchy-linearization and cooperative-dispatch engine
specified for the Inheritance-and-Composition repository.  The repository's
source material is a narrative notebook; the engine itself (Hierarchy Graph,
C3-style Linearizer, Capability Registry, Dispatch Resolver) is described only
in the specification, so every definition below is modelled from the spec's
words and marked as such.
-/

namespace SuperEngine

/-- Modelled from the spec: class identity.  The spec's ClassDecl identity
(unique name) is represented by a natural number. -/
abbrev Name := Nat

/-- Modelled from the spec: capability (method) name. -/
abbrev CapName := String

/-- Modelled from the spec (missing from src): the heads of the merge's input
sequences, scanned left to right in call order. -/
def heads (ls : List (List Name)) : List Name :=
  ls.filterMap List.head?

/-- Modelled from the spec (missing from src): a candidate head qualifies when
it does not occur in the tail (non-head position) of any input sequence. -/
def okHead (ls : List (List Name)) (c : Name) : Bool :=
  ls.all (fun l => decide (c ∉ l.tail))

/-- Modelled from the spec (missing from src): select the first qualifying
head, scanning the input sequences left to right. -/
def selectHead (ls : List (List Name)) : Option Name :=
  (heads ls).find? (okHead ls)

/-- Modelled from the spec (missing from src): remove the selected element
from the head of an input sequence where it is the head. -/
def removeHead (c : Name) : List Name → List Name
  | [] => []
  | x :: xs => if x = c then xs else x :: xs

/-- Modelled from the spec (missing from src): the C3 merge loop, with fuel
making it a total function.  Each round selects a qualifying head, appends it
to the output and removes it from every head where it occurs; the loop stops
when all inputs are empty, and yields none when no head qualifies. -/
def mergeAux : Nat → List (List Name) → Option (List Name)
  | 0, ls => if ls.all List.isEmpty then some [] else none
  | fuel + 1, ls =>
    if ls.all List.isEmpty then some []
    else
      match selectHead ls with
      | none => none
      | some c => (mergeAux fuel (ls.map (removeHead c))).map (fun out => c :: out)

/-- Modelled from the spec (missing from src): the C3 merge.  The total length
of the inputs is enough fuel, since every round removes at least one element. -/
def merge (ls : List (List Name)) : Option (List Name) :=
  mergeAux (ls.map List.length).sum ls

/-- Modelled from the spec (missing from src): one merge round as a state
step, used to speak about the round in which the merge gets stuck. -/
def mergeStep (ls : List (List Name)) : List (List Name) :=
  match selectHead ls with
  | some c => ls.map (removeHead c)
  | none => ls

/-- Modelled from the spec (missing from src): iterate merge rounds. -/
def stepN : Nat → List (List Name) → List (List Name)
  | 0, ls => ls
  | k + 1, ls => stepN k (mergeStep ls)

/-- Modelled from the spec (missing from src): a merge round in which no head
qualifies although the inputs are not yet exhausted. -/
def blockedRound (ls : List (List Name)) : Bool :=
  (selectHead ls).isNone && !(ls.all List.isEmpty)

/-- Modelled from the spec (missing from src): collect a list of optional
sequences, failing if any is absent (the parents' sequences must all exist). -/
def allSome : List (Option (List Name)) → Option (List (List Name))
  | [] => some []
  | some x :: xs => (allSome xs).map (fun r => x :: r)
  | none :: _ => none

/-- Modelled from the spec: the hierarchy graph is the list of class
declarations, most recent first; each entry carries the class and its direct
parents in declared order. -/
abbrev Graph := List (Name × List Name)

/-- Modelled from the spec: the direct parents of a class in the graph,
in declared order. -/
def parentsOf : Graph → Name → List Name
  | [], _ => []
  | (d, ps) :: g, c => if d = c then ps else parentsOf g c

/-- Modelled from the spec: whether a class has been declared in the graph. -/
def declared (g : Graph) (c : Name) : Bool :=
  g.any (fun e => e.1 = c)

/-- Modelled from the spec: the ancestors (transitive parents) of a class.
Well defined because each declaration's parents were declared earlier. -/
def ancestors : Graph → Name → List Name
  | [], _ => []
  | (d, ps) :: g, c =>
    if d = c then ps.flatMap (fun p => p :: ancestors g p)
    else ancestors g c

/-- Modelled from the spec: well-formed graphs, as produced by declaration
order: each class is declared once, after all of its parents. -/
def WFb : Graph → Bool
  | [] => true
  | (d, ps) :: g => !declared g d && ps.all (declared g) && WFb g

/-- Modelled from the spec (missing from src): the linearizer.
PrecedenceSequence of C with direct parents P1..Pn is C followed by the C3
merge of the parents' precedence sequences and the literal parent list.
Fuel equal to the graph length makes the recursion structural; the fuel is
exactly renewed at each level, so it never runs out on the declared suffix. -/
def linFuel : Nat → Graph → Name → Option (List Name)
  | 0, _, _ => none
  | fuel + 1, g0, c =>
    match g0 with
    | [] => none
    | (d, ps) :: g =>
      if d = c then
        match allSome (ps.map (fun p => linFuel fuel g p)) with
        | some ss => (merge (ss ++ [ps])).map (fun t => c :: t)
        | none => none
      else linFuel fuel g c

/-- Modelled from the spec (missing from src): PrecedenceSequence of a class
over a graph, or none when the class is undeclared or the hierarchy is
inconsistent. -/
def linearize (g : Graph) (c : Name) : Option (List Name) :=
  linFuel g.length g c

/-- Modelled from the spec (missing from src): the parents' precedence
sequences, in declared order, all of which must exist. -/
def seqsOf (g : Graph) (ps : List Name) : Option (List (List Name)) :=
  allSome (ps.map (fun p => linearize g p))

/-- Modelled from the spec: the engine's error taxonomy. -/
inductive EngineError where
  | CycleError : Name → EngineError
  | DuplicateParentError : Name → EngineError
  | InconsistentHierarchyError : Name → EngineError
  | DuplicateCapabilityError : CapName → EngineError
  | NoImplementationError : CapName → EngineError
  | UnterminatedChainError : CapName → EngineError
deriving DecidableEq

/-- Modelled from the spec: engine state, a hierarchy graph plus the memoized
precedence sequences. -/
structure EngineState where
  graph : Graph
  cache : List (Name × List Name)
deriving DecidableEq

/-- Modelled from the spec: the distinguished root class. -/
def rootName : Name := 0

/-- Modelled from the spec: initial state, holding only the root class. -/
def initState : EngineState := ⟨[(rootName, [])], []⟩

/-- Modelled from the spec (missing from src): does a list repeat an element. -/
def hasDup : List Name → Bool
  | [] => false
  | x :: xs => xs.contains x || hasDup xs

/-- Modelled from the spec (missing from src): declarations without explicit
parents are treated as direct children of the distinguished root. -/
def normParents (c : Name) (ps : List Name) : List Name :=
  if ps.isEmpty && !(c = rootName) then [rootName] else ps

/-- Modelled from the spec (missing from src): declare a class.  Fails with
DuplicateParentError if the same parent appears twice, with CycleError if the
class would transitively be its own ancestor; declarations without explicit
parents become direct children of the root.  On failure the state is
returned untouched. -/
def declare (s : EngineState) (c : Name) (ps : List Name) :
    Except EngineError Unit × EngineState :=
  if hasDup (normParents c ps) then
    (Except.error (EngineError.DuplicateParentError c), s)
  else if (normParents c ps).contains c
      || (normParents c ps).any (fun p => (ancestors s.graph p).contains c) then
    (Except.error (EngineError.CycleError c), s)
  else (Except.ok (), { s with graph := (c, normParents c ps) :: s.graph })

/-- Modelled from the spec (missing from src): cache lookup. -/
def lookupCache (cache : List (Name × List Name)) (c : Name) : Option (List Name) :=
  match cache.find? (fun e => e.1 = c) with
  | some e => some e.2
  | none => none

/-- Modelled from the spec (missing from src): compute or fetch the
precedence sequence of a class, memoizing on success; an impossible
linearization fails with InconsistentHierarchyError naming the class and
caches nothing. -/
def precedenceOf (s : EngineState) (c : Name) :
    Except EngineError (List Name) × EngineState :=
  match lookupCache s.cache c with
  | some q => (Except.ok q, s)
  | none =>
    match linearize s.graph c with
    | some q => (Except.ok q, { s with cache := (c, q) :: s.cache })
    | none => (Except.error (EngineError.InconsistentHierarchyError c), s)

/-- Modelled from the spec: a cache is consistent when every memoized entry is
the sequence the linearizer computes over the current graph. -/
def CacheOK (s : EngineState) : Prop :=
  ∀ e ∈ s.cache, linearize s.graph e.1 = some e.2

/-- Modelled from the spec: the capability registry, as the set of pairs of a
class and a capability name it implements. -/
abbrev Registry := List (Name × CapName)

/-- Modelled from the spec (missing from src): registry lookup. -/
def registered (R : Registry) (c : Name) (m : CapName) : Bool :=
  R.any (fun e => e.1 = c && e.2 = m)

/-- Modelled from the spec (missing from src): scan a residual of the
precedence sequence, carrying the absolute index, for the first class with a
registered implementation. -/
def scanFor (R : Registry) (m : CapName) : List Name → Nat → Option Nat
  | [], _ => none
  | c :: rest, i => if registered R c m then some i else scanFor R m rest (i + 1)

/-- Modelled from the spec (missing from src): first index at or after i whose
class has a registered implementation of the capability. -/
def findFrom (R : Registry) (m : CapName) (seq : List Name) (i : Nat) : Option Nat :=
  scanFor R m (seq.drop i) i

/-- Modelled from the spec: a dispatch cursor, the dynamic class's precedence
sequence with an index into it. -/
structure DispatchCursor where
  seq : List Name
  index : Nat

/-- Modelled from the spec (missing from src): where a cooperative next call
from the cursor lands: the first implementation strictly forward of the
cursor's index. -/
def nextFind (R : Registry) (m : CapName) (cur : DispatchCursor) : Option Nat :=
  findFrom R m cur.seq (cur.index + 1)

/-- Modelled from the spec: how a dispatch chain ends.  completed means some
implementation absorbed the call without a further next; unterminated means
the last implementation called next past the end (UnterminatedChainError);
noImpl means the very first scan found nothing (NoImplementationError). -/
inductive Outcome where
  | completed : Outcome
  | unterminated : CapName → Outcome
  | noImpl : CapName → Outcome
deriving DecidableEq

/-- Modelled from the spec (missing from src): run the cooperative chain from
an index.  Implementations are abstracted by which classes register the
capability and whether each implementation forwards with next; the result is
the trace of classes whose implementations executed, plus the outcome. -/
def runFrom (R : Registry) (cn : Name → CapName → Bool) (m : CapName)
    (seq : List Name) : Nat → Nat → List Name × Outcome
  | 0, _ => ([], Outcome.unterminated m)
  | fuel + 1, i =>
    match findFrom R m seq i with
    | none => ([], Outcome.unterminated m)
    | some j =>
      let c := seq.getD j rootName
      if cn c m then
        let r := runFrom R cn m seq fuel (j + 1)
        (c :: r.1, r.2)
      else ([c], Outcome.completed)

/-- Modelled from the spec (missing from src): invoke starts a chain on the
dynamic class's precedence sequence: scan from index 0 for the first
registered implementation, failing with NoImplementationError when none
exists anywhere in the sequence. -/
def invoke (R : Registry) (cn : Name → CapName → Bool) (m : CapName)
    (seq : List Name) : List Name × Outcome :=
  match findFrom R m seq 0 with
  | none => ([], Outcome.noImpl m)
  | some j =>
    let c := seq.getD j rootName
    if cn c m then
      let r := runFrom R cn m seq seq.length (j + 1)
      (c :: r.1, r.2)
    else ([c], Outcome.completed)

/-! Helper lemmas about the merge. -/

theorem find?_split {α : Type} (p : α → Bool) :
    ∀ l : List α, ∀ x, l.find? p = some x →
      p x = true ∧ ∃ u v, l = u ++ x :: v ∧ ∀ y ∈ u, p y = false := by
  intro l
  induction l with
  | nil => intro x h; simp at h
  | cons a t ih =>
    intro x h
    by_cases ha : p a
    · rw [List.find?_cons_of_pos _ ha] at h
      cases h
      exact ⟨ha, [], t, rfl, by simp⟩
    · rw [List.find?_cons_of_neg _ (by simpa using ha)] at h
      obtain ⟨hx, u, v, rfl, hu⟩ := ih x h
      refine ⟨hx, a :: u, v, rfl, ?_⟩
      intro y hy
      rcases List.mem_cons.mp hy with rfl | hy
      · simpa using ha
      · exact hu y hy

theorem okHead_iff (ls : List (List Name)) (c : Name) :
    okHead ls c = true ↔ ∀ l ∈ ls, c ∉ l.tail := by
  simp [okHead]

theorem selectHead_ok {ls : List (List Name)} {c : Name}
    (h : selectHead ls = some c) : ∀ l ∈ ls, c ∉ l.tail :=
  (okHead_iff ls c).mp (List.find?_some h)

theorem selectHead_mem {ls : List (List Name)} {c : Name}
    (h : selectHead ls = some c) : ∃ l ∈ ls, l.head? = some c := by
  have hc : c ∈ heads ls := List.mem_of_find?_eq_some h
  simpa [heads, List.mem_filterMap] using hc

theorem removeHead_sublist (c : Name) (l : List Name) : (removeHead c l).Sublist l := by
  cases l with
  | nil => simp [removeHead]
  | cons x xs =>
    by_cases hx : x = c
    · subst hx
      simpa [removeHead] using List.sublist_cons_self x xs
    · simp [removeHead, hx]

theorem mem_removeHead {c x : Name} {l : List Name}
    (hx : x ∈ l) (hne : x ≠ c) : x ∈ removeHead c l := by
  cases l with
  | nil => simp at hx
  | cons a t =>
    by_cases ha : a = c
    · subst ha
      simp [removeHead]
      rcases List.mem_cons.mp hx with rfl | hx
      · exact absurd rfl hne
      · exact hx
    · simpa [removeHead, ha] using hx

theorem not_mem_removeHead {c : Name} {l : List Name}
    (h : c ∉ l.tail) : c ∉ removeHead c l := by
  cases l with
  | nil => simp [removeHead]
  | cons a t =>
    by_cases ha : a = c
    · subst ha; simpa [removeHead] using h
    · simp only [removeHead, if_neg ha]
      intro hc
      rcases List.mem_cons.mp hc with rfl | hc
      · exact ha rfl
      · exact h (by simpa using hc)

theorem merge_out_mem :
    ∀ fuel ls out, mergeAux fuel ls = some out → ∀ x ∈ out, ∃ l ∈ ls, x ∈ l := by
  intro fuel
  induction fuel with
  | zero =>
    intro ls out h x hx
    by_cases he : ls.all List.isEmpty <;> simp [mergeAux, he] at h
    subst h; simp at hx
  | succ fuel ih =>
    intro ls out h x hx
    by_cases he : ls.all List.isEmpty
    · simp [mergeAux, he] at h; subst h; simp at hx
    · cases hsel : selectHead ls with
      | none => simp [mergeAux, he, hsel] at h
      | some c =>
        simp only [mergeAux, he, hsel, Bool.false_eq_true, if_false] at h
        rw [Option.map_eq_some'] at h
        obtain ⟨out2, h2, rfl⟩ := h
        rcases List.mem_cons.mp hx with rfl | hx2
        · obtain ⟨l, hl, hhead⟩ := selectHead_mem hsel
          cases l with
          | nil => simp at hhead
          | cons a t =>
            simp at hhead
            exact ⟨a :: t, hl, by simp [hhead]⟩
        · obtain ⟨l2, hl2, hx3⟩ := ih _ _ h2 x hx2
          obtain ⟨l, hl, rfl⟩ := List.mem_map.mp hl2
          exact ⟨l, hl, (removeHead_sublist c l).subset hx3⟩

theorem merge_mem_out :
    ∀ fuel ls out, mergeAux fuel ls = some out → ∀ l ∈ ls, ∀ x ∈ l, x ∈ out := by
  intro fuel
  induction fuel with
  | zero =>
    intro ls out h l hl x hx
    by_cases he : ls.all List.isEmpty <;> simp [mergeAux, he] at h
    have : l.isEmpty := by
      have := List.all_eq_true.mp he l hl
      simpa using this
    rw [List.isEmpty_iff] at this
    subst this; simp at hx
  | succ fuel ih =>
    intro ls out h l hl x hx
    by_cases he : ls.all List.isEmpty
    · have : l.isEmpty := by
        have := List.all_eq_true.mp he l hl
        simpa using this
      rw [List.isEmpty_iff] at this
      subst this; simp at hx
    · cases hsel : selectHead ls with
      | none => simp [mergeAux, he, hsel] at h
      | some c =>
        simp only [mergeAux, he, hsel, Bool.false_eq_true, if_false] at h
        rw [Option.map_eq_some'] at h
        obtain ⟨out2, h2, rfl⟩ := h
        by_cases hxc : x = c
        · subst hxc; exact List.mem_cons_self _ _
        · have hx2 : x ∈ removeHead c l := mem_removeHead hx hxc
          have : x ∈ out2 :=
            ih _ _ h2 (removeHead c l) (List.mem_map_of_mem _ hl) x hx2
          exact List.mem_cons_of_mem _ this

theorem merge_nodup :
    ∀ fuel ls out, mergeAux fuel ls = some out → out.Nodup := by
  intro fuel
  induction fuel with
  | zero =>
    intro ls out h
    by_cases he : ls.all List.isEmpty <;> simp [mergeAux, he] at h
    subst h; simp
  | succ fuel ih =>
    intro ls out h
    by_cases he : ls.all List.isEmpty
    · simp [mergeAux, he] at h; subst h; simp
    · cases hsel : selectHead ls with
      | none => simp [mergeAux, he, hsel] at h
      | some c =>
        simp only [mergeAux, he, hsel, Bool.false_eq_true, if_false] at h
        rw [Option.map_eq_some'] at h
        obtain ⟨out2, h2, rfl⟩ := h
        refine List.nodup_cons.mpr ⟨?_, ih _ _ h2⟩
        intro hc
        obtain ⟨l2, hl2, hcl2⟩ := merge_out_mem _ _ _ h2 c hc
        obtain ⟨l, hl, rfl⟩ := List.mem_map.mp hl2
        exact not_mem_removeHead (selectHead_ok hsel l hl) hcl2

theorem merge_order :
    ∀ fuel ls out, mergeAux fuel ls = some out →
      ∀ u x v, (u ++ x :: v) ∈ ls → ∀ y ∈ v, [x, y].Sublist out := by
  intro fuel
  induction fuel with
  | zero =>
    intro ls out h u x v hl y hy
    by_cases he : ls.all List.isEmpty <;> simp [mergeAux, he] at h
    have : (u ++ x :: v).isEmpty := by
      have := List.all_eq_true.mp he _ hl
      simpa using this
    simp at this
  | succ fuel ih =>
    intro ls out h u x v hl y hy
    by_cases he : ls.all List.isEmpty
    · have : (u ++ x :: v).isEmpty := by
        have := List.all_eq_true.mp he _ hl
        simpa using this
      simp at this
    · cases hsel : selectHead ls with
      | none => simp [mergeAux, he, hsel] at h
      | some c =>
        simp only [mergeAux, he, hsel, Bool.false_eq_true, if_false] at h
        rw [Option.map_eq_some'] at h
        obtain ⟨out2, h2, rfl⟩ := h
        by_cases hxc : x = c
        · subst hxc
          have hu : u = [] := by
            cases u with
            | nil => rfl
            | cons a u2 =>
              exfalso
              apply selectHead_ok hsel _ hl
              simp
            -- x is in the tail of its own list, contradicting selection
          subst hu
          have hrem : removeHead x (x :: v) = v := by simp [removeHead]
          have hyv : y ∈ out2 := by
            apply merge_mem_out _ _ _ h2 v _ y hy
            have : removeHead x ([] ++ x :: v) ∈ ls.map (removeHead x) :=
              List.mem_map_of_mem _ hl
            simpa [hrem] using this
          exact (List.cons_sublist_cons.mpr (List.singleton_sublist.mpr hyv))
        · have hres : ∃ u2, removeHead c (u ++ x :: v) = u2 ++ x :: v := by
            cases u with
            | nil => exact ⟨[], by simp [removeHead, hxc]⟩
            | cons a u2 =>
              by_cases hac : a = c
              · exact ⟨u2, by simp [removeHead, hac]⟩
              · exact ⟨a :: u2, by simp [removeHead, hac]⟩
          obtain ⟨u2, hu2⟩ := hres
          have hmem : (u2 ++ x :: v) ∈ ls.map (removeHead c) := by
            rw [← hu2]
            exact List.mem_map_of_mem _ hl
          exact (ih _ _ h2 u2 x v hmem y hy).cons c

theorem pair_sublist_split {x y : Name} :
    ∀ l : List Name, [x, y].Sublist l → ∃ u v, l = u ++ x :: v ∧ y ∈ v := by
  intro l
  induction l with
  | nil => intro h; simp at h
  | cons a t ih =>
    intro h
    cases h with
    | cons _ h2 =>
      obtain ⟨u, v, rfl, hy⟩ := ih h2
      exact ⟨a :: u, v, rfl, hy⟩
    | cons₂ _ h2 =>
      exact ⟨[], t, rfl, List.singleton_sublist.mp h2⟩

theorem before_of_pair {x y : Name} :
    ∀ l : List Name, l.Nodup → [x, y].Sublist l →
      ∀ i j : Nat, l[i]? = some x → l[j]? = some y → i < j := by
  intro l
  induction l with
  | nil => intro _ h; simp at h
  | cons a t ih =>
    intro hnd h i j hi hj
    have hat : a ∉ t := (List.nodup_cons.mp hnd).1
    have hndt : t.Nodup := (List.nodup_cons.mp hnd).2
    cases h with
    | cons₂ _ h2 =>
      -- x = a, y ∈ t
      have hyt : y ∈ t := List.singleton_sublist.mp h2
      cases j with
      | zero =>
        simp at hj
        subst hj
        exact absurd hyt hat
      | succ j2 =>
        cases i with
        | zero => exact Nat.succ_pos _
        | succ i2 =>
          exfalso
          simp at hi
          obtain ⟨hlt, hget⟩ := List.getElem?_eq_some_iff.mp hi
          exact hat (hget ▸ List.getElem_mem hlt)
    | cons _ h2 =>
      have hxt : x ∈ t := h2.subset (List.mem_cons_self x [y])
      have hyt : y ∈ t := h2.subset (by simp)
      cases i with
      | zero =>
        exfalso
        simp at hi
        subst hi
        exact hat hxt
      | succ i2 =>
        cases j with
        | zero =>
          exfalso
          simp at hj
          subst hj
          exact hat hyt
        | succ j2 =>
          simp only [List.getElem?_cons_succ] at hi hj
          exact Nat.succ_lt_succ (ih hndt h2 i2 j2 hi hj)

/-! Helper lemmas about the hierarchy graph and the linearizer. -/

theorem linearize_nil (c : Name) : linearize [] c = none := rfl

theorem linearize_cons (d : Name) (ps : List Name) (g : Graph) (c : Name) :
    linearize ((d, ps) :: g) c =
      if d = c then
        match seqsOf g ps with
        | some ss => (merge (ss ++ [ps])).map (fun t => c :: t)
        | none => none
      else linearize g c := rfl

theorem linearize_skip {d c : Name} (hne : d ≠ c) (ps : List Name) (g : Graph) :
    linearize ((d, ps) :: g) c = linearize g c := by
  rw [linearize_cons, if_neg hne]

theorem linearize_self (c : Name) (ps : List Name) (g : Graph) :
    linearize ((c, ps) :: g) c =
      match seqsOf g ps with
      | some ss => (merge (ss ++ [ps])).map (fun t => c :: t)
      | none => none := by
  rw [linearize_cons, if_pos rfl]

theorem lin_self_inv {c : Name} {ps : List Name} {g : Graph} {s : List Name}
    (h : linearize ((c, ps) :: g) c = some s) :
    ∃ ss merged, seqsOf g ps = some ss ∧ merge (ss ++ [ps]) = some merged
      ∧ s = c :: merged := by
  rw [linearize_self] at h
  cases hss : seqsOf g ps with
  | none => simp [hss] at h
  | some ss =>
    simp only [hss] at h
    rw [Option.map_eq_some'] at h
    obtain ⟨m, hm, rfl⟩ := h
    exact ⟨ss, m, rfl, hm, rfl⟩

theorem seqsOf_mem {g : Graph} :
    ∀ ps ss, seqsOf g ps = some ss → ∀ s ∈ ss, ∃ p ∈ ps, linearize g p = some s := by
  intro ps
  induction ps with
  | nil =>
    intro ss h s hs
    simp [seqsOf, allSome] at h
    subst h; simp at hs
  | cons p ps ih =>
    intro ss h s hs
    rw [seqsOf, List.map_cons] at h
    cases hl : linearize g p with
    | none => rw [hl] at h; simp [allSome] at h
    | some s1 =>
      rw [hl] at h
      simp only [allSome] at h
      rw [Option.map_eq_some'] at h
      obtain ⟨ss2, h2, rfl⟩ := h
      rcases List.mem_cons.mp hs with rfl | hs2
      · exact ⟨p, List.mem_cons_self _ _, hl⟩
      · obtain ⟨p2, hp2, hl2⟩ := ih ss2 h2 s hs2
        exact ⟨p2, List.mem_cons_of_mem _ hp2, hl2⟩

theorem seqsOf_all {g : Graph} :
    ∀ ps ss, seqsOf g ps = some ss → ∀ p ∈ ps, ∃ s ∈ ss, linearize g p = some s := by
  intro ps
  induction ps with
  | nil => intro ss h p hp; simp at hp
  | cons p1 ps ih =>
    intro ss h p hp
    rw [seqsOf, List.map_cons] at h
    cases hl : linearize g p1 with
    | none => rw [hl] at h; simp [allSome] at h
    | some s1 =>
      rw [hl] at h
      simp only [allSome] at h
      rw [Option.map_eq_some'] at h
      obtain ⟨ss2, h2, rfl⟩ := h
      rcases List.mem_cons.mp hp with rfl | hp2
      · exact ⟨s1, List.mem_cons_self _ _, hl⟩
      · obtain ⟨s2, hs2, hl2⟩ := ih ss2 h2 p hp2
        exact ⟨s2, List.mem_cons_of_mem _ hs2, hl2⟩

theorem WFb_cons_iff (d : Name) (ps : List Name) (g : Graph) :
    WFb ((d, ps) :: g) = true ↔
      declared g d = false ∧ (∀ p ∈ ps, declared g p = true) ∧ WFb g = true := by
  simp [WFb, List.all_eq_true, Bool.and_eq_true, Bool.not_eq_true']
  tauto

theorem ancestors_skip {d c : Name} (hne : d ≠ c) (ps : List Name) (g : Graph) :
    ancestors ((d, ps) :: g) c = ancestors g c := by
  simp [ancestors, hne]

theorem ancestors_self (c : Name) (ps : List Name) (g : Graph) :
    ancestors ((c, ps) :: g) c = ps.flatMap (fun p => p :: ancestors g p) := by
  simp [ancestors]

theorem parentsOf_skip {d c : Name} (hne : d ≠ c) (ps : List Name) (g : Graph) :
    parentsOf ((d, ps) :: g) c = parentsOf g c := by
  simp [parentsOf, hne]

theorem parentsOf_self (c : Name) (ps : List Name) (g : Graph) :
    parentsOf ((c, ps) :: g) c = ps := by
  simp [parentsOf]

theorem declared_mono {g : Graph} {x : Name} (e : Name × List Name)
    (h : declared g x = true) : declared (e :: g) x = true := by
  simp [declared, List.any_cons] at h ⊢
  exact Or.inr h

theorem anc_declared : ∀ g : Graph, WFb g = true → ∀ c x,
    x ∈ ancestors g c → declared g x = true := by
  intro g
  induction g with
  | nil => intro _ c x hx; simp [ancestors] at hx
  | cons e g ih =>
    obtain ⟨d, ps⟩ := e
    intro hwf c x hx
    obtain ⟨hd, hps, hwf2⟩ := (WFb_cons_iff d ps g).mp hwf
    by_cases hdc : d = c
    · subst hdc
      rw [ancestors_self, List.mem_flatMap] at hx
      obtain ⟨p, hp, hxp⟩ := hx
      rcases List.mem_cons.mp hxp with rfl | hxp2
      · exact declared_mono _ (hps x hp)
      · exact declared_mono _ (ih hwf2 p x hxp2)
    · rw [ancestors_skip hdc] at hx
      exact declared_mono _ (ih hwf2 c x hx)

theorem anc_irrefl : ∀ g : Graph, WFb g = true → ∀ c, c ∉ ancestors g c := by
  intro g
  induction g with
  | nil => intro _ c; simp [ancestors]
  | cons e g ih =>
    obtain ⟨d, ps⟩ := e
    intro hwf c hc
    obtain ⟨hd, hps, hwf2⟩ := (WFb_cons_iff d ps g).mp hwf
    by_cases hdc : d = c
    · subst hdc
      rw [ancestors_self, List.mem_flatMap] at hc
      obtain ⟨p, hp, hxp⟩ := hc
      rcases List.mem_cons.mp hxp with rfl | h2
      · rw [hps d hp] at hd; cases hd
      · have := anc_declared g hwf2 p d h2
        rw [this] at hd; cases hd
    · rw [ancestors_skip hdc] at hc
      exact ih hwf2 c hc

theorem lin_declared : ∀ g : Graph, ∀ c s, linearize g c = some s →
    declared g c = true := by
  intro g
  induction g with
  | nil => intro c s h; rw [linearize_nil] at h; cases h
  | cons e g ih =>
    obtain ⟨d, ps⟩ := e
    intro c s h
    by_cases hdc : d = c
    · subst hdc; simp [declared]
    · rw [linearize_skip hdc] at h
      exact declared_mono _ (ih c s h)

theorem lin_head : ∀ g : Graph, ∀ c s, linearize g c = some s →
    ∃ t, s = c :: t := by
  intro g
  induction g with
  | nil => intro c s h; rw [linearize_nil] at h; cases h
  | cons e g ih =>
    obtain ⟨d, ps⟩ := e
    intro c s h
    by_cases hdc : d = c
    · subst hdc
      obtain ⟨ss, m, _, _, rfl⟩ := lin_self_inv h
      exact ⟨m, rfl⟩
    · rw [linearize_skip hdc] at h
      exact ih c s h

theorem lin_tail_anc : ∀ g : Graph, WFb g = true → ∀ c s, linearize g c = some s →
    ∀ x ∈ s.tail, x ∈ ancestors g c := by
  intro g
  induction g with
  | nil => intro _ c s h; rw [linearize_nil] at h; cases h
  | cons e g ih =>
    obtain ⟨d, ps⟩ := e
    intro hwf c s h x hx
    obtain ⟨hd, hps, hwf2⟩ := (WFb_cons_iff d ps g).mp hwf
    by_cases hdc : d = c
    · subst hdc
      obtain ⟨ss, merged, hss, hm, rfl⟩ := lin_self_inv h
      simp only [List.tail_cons] at hx
      obtain ⟨l, hl, hxl⟩ := merge_out_mem _ _ _ hm x hx
      rw [ancestors_self, List.mem_flatMap]
      rcases List.mem_append.mp hl with hl1 | hl2
      · obtain ⟨p, hp, hlp⟩ := seqsOf_mem _ _ hss l hl1
        obtain ⟨t, rfl⟩ := lin_head g p l hlp
        rcases List.mem_cons.mp hxl with rfl | hxt
        · exact ⟨x, hp, List.mem_cons_self _ _⟩
        · exact ⟨p, hp, List.mem_cons_of_mem _
            (ih hwf2 p _ hlp x (by simpa using hxt))⟩
      · have hlps : l = ps := by simpa using hl2
        subst hlps
        exact ⟨x, hxl, List.mem_cons_self _ _⟩
    · rw [linearize_skip hdc] at h
      rw [ancestors_skip hdc]
      exact ih hwf2 c s h x hx

theorem lin_mem_cases {g : Graph} {c x : Name} {s : List Name}
    (hwf : WFb g = true) (h : linearize g c = some s) (hx : x ∈ s) :
    x = c ∨ x ∈ ancestors g c := by
  obtain ⟨t, rfl⟩ := lin_head g c s h
  rcases List.mem_cons.mp hx with rfl | hx2
  · exact Or.inl rfl
  · exact Or.inr (lin_tail_anc g hwf c _ h x (by simpa using hx2))

theorem lin_nodup : ∀ g : Graph, WFb g = true → ∀ c s, linearize g c = some s →
    s.Nodup := by
  intro g
  induction g with
  | nil => intro _ c s h; rw [linearize_nil] at h; cases h
  | cons e g ih =>
    obtain ⟨d, ps⟩ := e
    intro hwf c s h
    obtain ⟨hd, hps, hwf2⟩ := (WFb_cons_iff d ps g).mp hwf
    by_cases hdc : d = c
    · subst hdc
      obtain ⟨ss, merged, hss, hm, rfl⟩ := lin_self_inv h
      refine List.nodup_cons.mpr ⟨?_, merge_nodup _ _ _ hm⟩
      intro hc
      exact anc_irrefl _ hwf d (lin_tail_anc _ hwf d _ h d (by simpa using hc))
    · rw [linearize_skip hdc] at h
      exact ih hwf2 c s h

theorem lin_anc_mem : ∀ g : Graph, WFb g = true → ∀ c s, linearize g c = some s →
    ∀ a ∈ ancestors g c, a ∈ s := by
  intro g
  induction g with
  | nil => intro _ c s h; rw [linearize_nil] at h; cases h
  | cons e g ih =>
    obtain ⟨d, ps⟩ := e
    intro hwf c s h a ha
    obtain ⟨hd, hps, hwf2⟩ := (WFb_cons_iff d ps g).mp hwf
    by_cases hdc : d = c
    · subst hdc
      obtain ⟨ss, merged, hss, hm, rfl⟩ := lin_self_inv h
      rw [ancestors_self, List.mem_flatMap] at ha
      obtain ⟨p, hp, hap⟩ := ha
      have hlit : ps ∈ ss ++ [ps] := List.mem_append.mpr (Or.inr (by simp))
      rcases List.mem_cons.mp hap with rfl | ha2
      · exact List.mem_cons_of_mem _ (merge_mem_out _ _ _ hm ps hlit a hp)
      · obtain ⟨sp, hsp, hlp⟩ := seqsOf_all _ _ hss p hp
        exact List.mem_cons_of_mem _
          (merge_mem_out _ _ _ hm sp (List.mem_append.mpr (Or.inl hsp)) a
            (ih hwf2 p sp hlp a ha2))
    · rw [linearize_skip hdc] at h
      rw [ancestors_skip hdc] at ha
      exact ih hwf2 c s h a ha

theorem lin_not_head_name {g : Graph} {d c x : Name} {s : List Name}
    (hd : declared g d = false) (hdc : d ≠ c) (hwf : WFb g = true)
    (h : linearize g c = some s) (hx : x ∈ s) : x ≠ d := by
  rcases lin_mem_cases hwf h hx with rfl | hanc
  · exact fun he => hdc he.symm
  · intro he
    have hdecl := anc_declared g hwf c x hanc
    rw [he, hd] at hdecl
    cases hdecl

theorem lin_before_anc : ∀ g : Graph, WFb g = true → ∀ c s, linearize g c = some s →
    ∀ x ∈ s, ∀ a ∈ ancestors g x, [x, a].Sublist s := by
  intro g
  induction g with
  | nil => intro _ c s h; rw [linearize_nil] at h; cases h
  | cons e g ih =>
    obtain ⟨d, ps⟩ := e
    intro hwf c s h x hx a ha
    obtain ⟨hd, hps, hwf2⟩ := (WFb_cons_iff d ps g).mp hwf
    by_cases hdc : d = c
    · subst hdc
      obtain ⟨ss, merged, hss, hm, rfl⟩ := lin_self_inv h
      have hcnot : d ∉ merged := by
        intro hc
        exact anc_irrefl _ hwf d (lin_tail_anc _ hwf d _ h d (by simpa using hc))
      rcases List.mem_cons.mp hx with rfl | hx2
      · have has : a ∈ x :: merged := lin_anc_mem _ hwf x _ h a ha
        have hane : a ≠ x := fun he => anc_irrefl _ hwf x (he ▸ ha)
        rcases List.mem_cons.mp has with rfl | ham
        · exact absurd rfl hane
        · exact List.cons_sublist_cons.mpr (List.singleton_sublist.mpr ham)
      · have hxc : x ≠ d := fun he => hcnot (he ▸ hx2)
        obtain ⟨l, hl, hxl⟩ := merge_out_mem _ _ _ hm x hx2
        have hfind : ∃ sp, (∃ p ∈ ps, linearize g p = some sp) ∧ x ∈ sp ∧ sp ∈ ss := by
          rcases List.mem_append.mp hl with hl1 | hl2
          · obtain ⟨p, hp, hlp⟩ := seqsOf_mem _ _ hss l hl1
            exact ⟨l, ⟨p, hp, hlp⟩, hxl, hl1⟩
          · have hlps : l = ps := by simpa using hl2
            subst hlps
            obtain ⟨sp, hsp, hlp⟩ := seqsOf_all _ _ hss x hxl
            obtain ⟨t, rfl⟩ := lin_head g x sp hlp
            exact ⟨x :: t, ⟨x, hxl, hlp⟩, List.mem_cons_self _ _, hsp⟩
        obtain ⟨sp, ⟨p, hp, hlp⟩, hxsp, hspss⟩ := hfind
        have ha2 : a ∈ ancestors g x := by
          rwa [ancestors_skip (Ne.symm hxc)] at ha
        have hpair : [x, a].Sublist sp := ih hwf2 p sp hlp x hxsp a ha2
        obtain ⟨u, v, rfl, hav⟩ := pair_sublist_split sp hpair
        have hout : [x, a].Sublist merged :=
          merge_order _ _ _ hm u x v (List.mem_append.mpr (Or.inl hspss)) a hav
        exact hout.cons d
    · rw [linearize_skip hdc] at h
      have hxd : x ≠ d := lin_not_head_name hd hdc hwf2 h hx
      rw [ancestors_skip (Ne.symm hxd)] at ha
      exact ih hwf2 c s h x hx a ha

theorem lin_localorder : ∀ g : Graph, WFb g = true → ∀ c s, linearize g c = some s →
    ∀ x ∈ s, ∀ u p v, parentsOf g x = u ++ p :: v → ∀ q ∈ v, [p, q].Sublist s := by
  intro g
  induction g with
  | nil => intro _ c s h; rw [linearize_nil] at h; cases h
  | cons e g ih =>
    obtain ⟨d, ps⟩ := e
    intro hwf c s h x hx u p v hdecomp q hq
    obtain ⟨hd, hps, hwf2⟩ := (WFb_cons_iff d ps g).mp hwf
    by_cases hdc : d = c
    · subst hdc
      obtain ⟨ss, merged, hss, hm, rfl⟩ := lin_self_inv h
      have hcnot : d ∉ merged := by
        intro hc
        exact anc_irrefl _ hwf d (lin_tail_anc _ hwf d _ h d (by simpa using hc))
      rcases List.mem_cons.mp hx with rfl | hx2
      · rw [parentsOf_self] at hdecomp
        have hlit : (u ++ p :: v) ∈ ss ++ [ps] := by
          rw [← hdecomp]
          exact List.mem_append.mpr (Or.inr (by simp))
        exact (merge_order _ _ _ hm u p v hlit q hq).cons x
      · have hxc : x ≠ d := fun he => hcnot (he ▸ hx2)
        obtain ⟨l, hl, hxl⟩ := merge_out_mem _ _ _ hm x hx2
        have hfind : ∃ sp, (∃ pp ∈ ps, linearize g pp = some sp) ∧ x ∈ sp ∧ sp ∈ ss := by
          rcases List.mem_append.mp hl with hl1 | hl2
          · obtain ⟨pp, hpp, hlp⟩ := seqsOf_mem _ _ hss l hl1
            exact ⟨l, ⟨pp, hpp, hlp⟩, hxl, hl1⟩
          · have hlps : l = ps := by simpa using hl2
            subst hlps
            obtain ⟨sp, hsp, hlp⟩ := seqsOf_all _ _ hss x hxl
            obtain ⟨t, rfl⟩ := lin_head g x sp hlp
            exact ⟨x :: t, ⟨x, hxl, hlp⟩, List.mem_cons_self _ _, hsp⟩
        obtain ⟨sp, ⟨pp, hpp, hlp⟩, hxsp, hspss⟩ := hfind
        have hdecomp2 : parentsOf g x = u ++ p :: v := by
          rwa [parentsOf_skip (Ne.symm hxc)] at hdecomp
        have hpair : [p, q].Sublist sp := ih hwf2 pp sp hlp x hxsp u p v hdecomp2 q hq
        obtain ⟨u2, v2, rfl, hqv⟩ := pair_sublist_split sp hpair
        have hout : [p, q].Sublist merged :=
          merge_order _ _ _ hm u2 p v2 (List.mem_append.mpr (Or.inl hspss)) q hqv
        exact hout.cons d
    · rw [linearize_skip hdc] at h
      have hxd : x ≠ d := lin_not_head_name hd hdc hwf2 h hx
      rw [parentsOf_skip (Ne.symm hxd)] at hdecomp
      exact ih hwf2 c s h x hx u p v hdecomp q hq

/-! Helper lemmas about blocked merge rounds. -/

theorem blockedRound_iff (ls : List (List Name)) :
    blockedRound ls = true ↔ selectHead ls = none ∧ ls.all List.isEmpty = false := by
  simp [blockedRound, Bool.and_eq_true, Option.isNone_iff_eq_none, Bool.not_eq_true']

theorem selectHead_not_empty {ls : List (List Name)} {c : Name}
    (h : selectHead ls = some c) : ls.all List.isEmpty = false := by
  obtain ⟨l, hl, hhead⟩ := selectHead_mem h
  cases l with
  | nil => simp at hhead
  | cons a t =>
    rw [List.all_eq_false]
    exact ⟨a :: t, hl, by simp⟩

theorem blocked_merge_none :
    ∀ k ls, blockedRound (stepN k ls) = true → ∀ fuel, mergeAux fuel ls = none := by
  intro k
  induction k with
  | zero =>
    intro ls hb fuel
    rw [stepN] at hb
    obtain ⟨hsel, hne⟩ := (blockedRound_iff ls).mp hb
    cases fuel with
    | zero => simp [mergeAux, hne]
    | succ fuel => simp [mergeAux, hne, hsel]
  | succ k ih =>
    intro ls hb fuel
    rw [stepN] at hb
    cases hsel : selectHead ls with
    | none =>
      have hms : mergeStep ls = ls := by simp [mergeStep, hsel]
      rw [hms] at hb
      exact ih ls hb fuel
    | some c =>
      have hne : ls.all List.isEmpty = false := selectHead_not_empty hsel
      have hms : mergeStep ls = ls.map (removeHead c) := by simp [mergeStep, hsel]
      rw [hms] at hb
      cases fuel with
      | zero => simp [mergeAux, hne]
      | succ fuel =>
        simp only [mergeAux, hne, Bool.false_eq_true, if_false, hsel]
        rw [ih _ hb fuel]
        rfl

/-! Helper lemmas about the dispatch scan. -/

theorem scanFor_none_iff (R : Registry) (m : CapName) :
    ∀ l : List Name, ∀ i : Nat,
      scanFor R m l i = none ↔ ∀ c ∈ l, registered R c m = false := by
  intro l
  induction l with
  | nil => intro i; simp [scanFor]
  | cons c rest ih =>
    intro i
    cases hr : registered R c m with
    | true =>
      simp only [scanFor, hr, if_true]
      constructor
      · intro h; cases h
      · intro hall
        have := hall c (List.mem_cons_self _ _)
        rw [hr] at this; cases this
    | false =>
      simp only [scanFor, hr, Bool.false_eq_true, if_false]
      rw [ih (i + 1)]
      constructor
      · intro hall x hx
        rcases List.mem_cons.mp hx with rfl | hx2
        · exact hr
        · exact hall x hx2
      · intro hall x hx
        exact hall x (List.mem_cons_of_mem _ hx)

theorem scanFor_some (R : Registry) (m : CapName) :
    ∀ l : List Name, ∀ i j : Nat, scanFor R m l i = some j →
      ∃ n : Nat, j = i + n ∧ (∃ c, l[n]? = some c ∧ registered R c m = true) ∧
        ∀ k : Nat, k < n → ∀ c2, l[k]? = some c2 → registered R c2 m = false := by
  intro l
  induction l with
  | nil => intro i j h; simp [scanFor] at h
  | cons c rest ih =>
    intro i j h
    cases hr : registered R c m with
    | true =>
      simp only [scanFor, hr, if_true] at h
      cases h
      refine ⟨0, by omega, ⟨c, by simp, hr⟩, ?_⟩
      intro k hk c2 hc2
      omega
    | false =>
      simp only [scanFor, hr, Bool.false_eq_true, if_false] at h
      obtain ⟨n, rfl, ⟨c2, hc2, hreg⟩, hmin⟩ := ih (i + 1) j h
      refine ⟨n + 1, by omega, ⟨c2, by simpa using hc2, hreg⟩, ?_⟩
      intro k hk c3 hc3
      cases k with
      | zero =>
        simp at hc3
        subst hc3
        exact hr
      | succ k2 =>
        rw [List.getElem?_cons_succ] at hc3
        exact hmin k2 (by omega) c3 hc3

theorem findFrom_none_iff (R : Registry) (m : CapName) (seq : List Name) (i : Nat) :
    findFrom R m seq i = none ↔ ∀ c ∈ seq.drop i, registered R c m = false := by
  rw [findFrom]
  exact scanFor_none_iff R m _ i

theorem findFrom_some {R : Registry} {m : CapName} {seq : List Name} {i j : Nat}
    (h : findFrom R m seq i = some j) :
    i ≤ j ∧ (∃ c, seq[j]? = some c ∧ registered R c m = true) ∧
      ∀ k : Nat, i ≤ k → k < j → ∀ c2, seq[k]? = some c2 →
        registered R c2 m = false := by
  rw [findFrom] at h
  obtain ⟨n, rfl, ⟨c, hc, hreg⟩, hmin⟩ := scanFor_some R m _ i _ h
  rw [List.getElem?_drop] at hc
  refine ⟨by omega, ⟨c, hc, hreg⟩, ?_⟩
  intro k hik hkj c2 hc2
  have hdk : (seq.drop i)[k - i]? = some c2 := by
    rw [List.getElem?_drop]
    have he : i + (k - i) = k := by omega
    rw [he]
    exact hc2
  exact hmin (k - i) (by omega) c2 hdk

theorem runFrom_ne_noImpl (R : Registry) (cn : Name → CapName → Bool)
    (m m2 : CapName) (seq : List Name) :
    ∀ fuel i, (runFrom R cn m seq fuel i).2 ≠ Outcome.noImpl m2 := by
  intro fuel
  induction fuel with
  | zero => intro i; simp [runFrom]
  | succ fuel ih =>
    intro i
    cases hf : findFrom R m seq i with
    | none => simp [runFrom, hf]
    | some j =>
      simp only [runFrom, hf]
      by_cases hcn : cn (seq.getD j rootName) m
      · rw [if_pos hcn]
        simpa using ih (j + 1)
      · rw [if_neg hcn]
        simp

/-! Helper lemmas about the memoizing state. -/

theorem lookupCache_mem {cache : List (Name × List Name)} {c : Name} {q : List Name}
    (h : lookupCache cache c = some q) : (c, q) ∈ cache := by
  rw [lookupCache] at h
  cases hf : cache.find? (fun e => e.1 = c) with
  | none => rw [hf] at h; cases h
  | some e =>
    rw [hf] at h
    cases h
    have hmem := List.mem_of_find?_eq_some hf
    have hp : e.1 = c := by simpa using List.find?_some hf
    obtain ⟨e1, e2⟩ := e
    simp only at hp
    subst hp
    exact hmem

theorem precedenceOf_of_lin_some {s : EngineState} {c : Name} {q : List Name}
    (hok : CacheOK s) (hlin : linearize s.graph c = some q) :
    (precedenceOf s c).1 = Except.ok q := by
  unfold precedenceOf
  cases hl : lookupCache s.cache c with
  | some q2 =>
    have hq2 := hok _ (lookupCache_mem hl)
    rw [hlin] at hq2
    cases hq2
    rfl
  | none =>
    simp [hlin]

theorem precedenceOf_of_lin_none {s : EngineState} {c : Name}
    (hok : CacheOK s) (hlin : linearize s.graph c = none) :
    (precedenceOf s c).1 = Except.error (EngineError.InconsistentHierarchyError c) := by
  unfold precedenceOf
  cases hl : lookupCache s.cache c with
  | some q =>
    have hq := hok _ (lookupCache_mem hl)
    rw [hlin] at hq
    cases hq
  | none =>
    simp [hlin]

theorem precedenceOf_graph (s : EngineState) (c : Name) :
    (precedenceOf s c).2.graph = s.graph := by
  unfold precedenceOf
  cases hl : lookupCache s.cache c with
  | some q => rfl
  | none =>
    cases hlin : linearize s.graph c with
    | some q => rfl
    | none => rfl

theorem cacheOK_precedenceOf {s : EngineState} (c : Name) (hok : CacheOK s) :
    CacheOK (precedenceOf s c).2 := by
  unfold precedenceOf
  cases hl : lookupCache s.cache c with
  | some q => exact hok
  | none =>
    cases hlin : linearize s.graph c with
    | some q =>
      intro e he
      simp only at he
      rcases List.mem_cons.mp he with rfl | he2
      · exact hlin
      · exact hok e he2
    | none => exact hok

theorem precedenceOf_error_state {s : EngineState} {c : Name} {e : EngineError}
    (h : (precedenceOf s c).1 = Except.error e) :
    (precedenceOf s c).2 = s ∧ lookupCache s.cache c = none := by
  unfold precedenceOf at h ⊢
  cases hl : lookupCache s.cache c with
  | some q => rw [hl] at h; cases h
  | none =>
    cases hlin : linearize s.graph c with
    | some q => rw [hl, hlin] at h; cases h
    | none => exact ⟨rfl, rfl⟩

theorem declare_error_state {s : EngineState} {c : Name} {ps : List Name}
    {e : EngineError} (h : (declare s c ps).1 = Except.error e) :
    (declare s c ps).2 = s := by
  unfold declare at h ⊢
  by_cases h1 : hasDup (normParents c ps) = true
  · rw [if_pos h1]
  · rw [if_neg h1] at h ⊢
    by_cases h2 : ((normParents c ps).contains c
        || (normParents c ps).any (fun p => (ancestors s.graph p).contains c)) = true
    · rw [if_pos h2]
    · rw [if_neg h2] at h
      simp at h

/-! Characterizations of invoke. -/

theorem invoke_none {R : Registry} {cn : Name → CapName → Bool} {m : CapName}
    {seq : List Name} (hf : findFrom R m seq 0 = none) :
    invoke R cn m seq = ([], Outcome.noImpl m) := by
  unfold invoke
  rw [hf]

theorem invoke_some {R : Registry} {cn : Name → CapName → Bool} {m : CapName}
    {seq : List Name} {j : Nat} (hf : findFrom R m seq 0 = some j) :
    invoke R cn m seq =
      if cn (seq.getD j rootName) m then
        ((seq.getD j rootName) :: (runFrom R cn m seq seq.length (j + 1)).1,
          (runFrom R cn m seq seq.length (j + 1)).2)
      else ([seq.getD j rootName], Outcome.completed) := by
  unfold invoke
  rw [hf]

/-! Concrete hierarchies and registries used by the testable properties:
root is class 0, and in the diamond A = 1, B = 2, C = 3, D = 4; in the
inconsistent example X = 5, Y = 6, Z = 7; in the cooperative drawing
hierarchy Root = 1, Shape = 2, ColoredShape = 3. -/

def sDiamond : EngineState :=
  (declare (declare (declare (declare initState 1 []).2 2 [1]).2 3 [1]).2 4 [2, 3]).2

def sSwap : EngineState :=
  (declare (declare (declare (declare initState 1 []).2 2 [1]).2 3 [1]).2 4 [3, 2]).2

def sZ : EngineState :=
  (declare (declare (declare (declare (declare initState
    1 []).2 2 []).2 5 [1, 2]).2 6 [2, 1]).2 7 [5, 6]).2

def gDiamond : Graph := sDiamond.graph

def cnAll : Name → CapName → Bool := fun _ _ => true

def cnNotRoot : Name → CapName → Bool := fun c _ => !(c = rootName)

def regF : Registry := [(4, "f"), (2, "f"), (3, "f")]

def regFRoot : Registry := [(4, "f"), (2, "f"), (3, "f"), (0, "f")]

def gRoots : Graph := [(3, [2]), (2, [1]), (1, [0]), (0, [])]

def regDraw : Registry := [(1, "draw"), (2, "draw"), (3, "draw")]

/-! The claims. -/

/-- C1: for every class C with direct parents P1..Pn in declared order, the
linearizer computes PrecedenceSequence(C) as C followed by the C3 merge of
the parents' precedence sequences and the literal parent list; the merge
repeatedly scans the inputs left to right, selects the first head that does
not occur in the tail of any input sequence, appends it to the output, and
removes it from the head of every input where it is the head, until all
inputs are empty. -/
theorem claim_C1 (c : Name) (ps : List Name) (g : Graph) (ss : List (List Name))
    (hss : seqsOf g ps = some ss) :
    linearize ((c, ps) :: g) c = (merge (ss ++ [ps])).map (fun t => c :: t)
    ∧ (∀ d qs, d ≠ c → linearize ((d, qs) :: g) c = linearize g c)
    ∧ (∀ fuel : Nat, ∀ ls, mergeAux (fuel + 1) ls =
        if ls.all List.isEmpty then some []
        else match selectHead ls with
          | none => none
          | some x => (mergeAux fuel (ls.map (removeHead x))).map (fun out => x :: out))
    ∧ (∀ ls, merge ls = mergeAux (ls.map List.length).sum ls)
    ∧ (∀ ls x, selectHead ls = some x → okHead ls x = true ∧
        ∃ u v, heads ls = u ++ x :: v ∧ ∀ y ∈ u, okHead ls y = false)
    ∧ (∀ ls x, okHead ls x = true ↔ ∀ l ∈ ls, x ∉ l.tail) := by
  refine ⟨?_, ?_, fun _ _ => rfl, fun _ => rfl, ?_, okHead_iff⟩
  · rw [linearize_self]
    simp [hss]
  · intro d qs hdc
    exact linearize_skip hdc qs g
  · intro ls x h
    obtain ⟨hok, u, v, hdec, hmin⟩ := find?_split (okHead ls) (heads ls) x h
    exact ⟨hok, u, v, hdec, hmin⟩

theorem claim_C1_witness :
    seqsOf [(3, [1]), (2, [1]), (1, [0]), (0, [])] [2, 3]
        = some [[2, 1, 0], [3, 1, 0]]
    ∧ linearize ((4, [2, 3]) :: [(3, [1]), (2, [1]), (1, [0]), (0, [])]) 4
        = (merge ([[2, 1, 0], [3, 1, 0]] ++ [[2, 3]])).map (fun t => 4 :: t) :=
  ⟨rfl, (claim_C1 4 [2, 3] [(3, [1]), (2, [1]), (1, [0]), (0, [])]
    [[2, 1, 0], [3, 1, 0]] rfl).1⟩

/-- C2: for every class for which linearization succeeds over a well-formed
graph, the precedence sequence is a duplicate-free total order containing
exactly the class and its ancestors, with the class itself first, every class
preceding each of its ancestors, and any class's direct parents appearing in
declared order. -/
theorem claim_C2 (g : Graph) (c : Name) (s : List Name)
    (hwf : WFb g = true) (hlin : linearize g c = some s) :
    s.head? = some c
    ∧ s.Nodup
    ∧ (∀ x ∈ s, x = c ∨ x ∈ ancestors g c)
    ∧ (∀ a ∈ ancestors g c, a ∈ s)
    ∧ (∀ x ∈ s, ∀ a ∈ ancestors g x, [x, a].Sublist s)
    ∧ (∀ x ∈ s, ∀ u p v, parentsOf g x = u ++ p :: v → ∀ q ∈ v, [p, q].Sublist s) := by
  obtain ⟨t, rfl⟩ := lin_head g c s hlin
  exact ⟨rfl, lin_nodup g hwf c _ hlin, fun x hx => lin_mem_cases hwf hlin hx,
    lin_anc_mem g hwf c _ hlin, lin_before_anc g hwf c _ hlin,
    lin_localorder g hwf c _ hlin⟩

theorem claim_C2_witness :
    WFb gDiamond = true
    ∧ linearize gDiamond 4 = some [4, 2, 3, 1, 0]
    ∧ [4, 2, 3, 1, 0].Nodup :=
  ⟨rfl, rfl, (claim_C2 gDiamond 4 [4, 2, 3, 1, 0] rfl rfl).2.1⟩

/-- C3: in the diamond A = 1, B = 2, C = 3, D = 4 with capability "f"
registered on D, B and C, each implementation calling next, invoking "f" on
an instance of dynamic class D executes D, then B, then C exactly once each
in that order; the subsequent next from C finds no further implementation
(an unabsorbed exhausted chain), while registering an absorbing
implementation on root completes the chain. -/
theorem claim_C3 :
    linearize gDiamond 4 = some [4, 2, 3, 1, 0]
    ∧ invoke regF cnAll "f" [4, 2, 3, 1, 0] = ([4, 2, 3], Outcome.unterminated "f")
    ∧ nextFind regF "f" ⟨[4, 2, 3, 1, 0], 2⟩ = none
    ∧ invoke regFRoot cnNotRoot "f" [4, 2, 3, 1, 0]
        = ([4, 2, 3, 0], Outcome.completed) :=
  ⟨rfl, rfl, rfl, rfl⟩

/-- C4: when linearization of C reaches a merge round in which no head
qualifies while the inputs are not exhausted, linearization fails with
InconsistentHierarchyError naming C and caches nothing; in particular, for
X(A,B) = 5, Y(B,A) = 6, Z(X,Y) = 7, the linearization of Z so fails. -/
theorem claim_C4 (g : Graph) (c : Name) (ps : List Name) (ss : List (List Name))
    (cash : List (Name × List Name)) (k : Nat)
    (hss : seqsOf g ps = some ss)
    (hblock : blockedRound (stepN k (ss ++ [ps])) = true)
    (hcache : lookupCache cash c = none) :
    precedenceOf ⟨(c, ps) :: g, cash⟩ c
      = (Except.error (EngineError.InconsistentHierarchyError c), ⟨(c, ps) :: g, cash⟩)
    ∧ (precedenceOf sZ 7).1 = Except.error (EngineError.InconsistentHierarchyError 7) := by
  refine ⟨?_, rfl⟩
  have hmerge : merge (ss ++ [ps]) = none := blocked_merge_none k _ hblock _
  have hlin : linearize ((c, ps) :: g) c = none := by
    rw [linearize_self]
    simp [hss, hmerge]
  unfold precedenceOf
  rw [hcache, hlin]

theorem claim_C4_witness :
    seqsOf [(6, [2, 1]), (5, [1, 2]), (2, [0]), (1, [0]), (0, [])] [5, 6]
        = some [[5, 1, 2, 0], [6, 2, 1, 0]]
    ∧ blockedRound (stepN 2 ([[5, 1, 2, 0], [6, 2, 1, 0]] ++ [[5, 6]])) = true
    ∧ precedenceOf
        ⟨(7, [5, 6]) :: [(6, [2, 1]), (5, [1, 2]), (2, [0]), (1, [0]), (0, [])], []⟩ 7
      = (Except.error (EngineError.InconsistentHierarchyError 7),
        ⟨(7, [5, 6]) :: [(6, [2, 1]), (5, [1, 2]), (2, [0]), (1, [0]), (0, [])], []⟩) :=
  ⟨rfl, rfl,
    (claim_C4 [(6, [2, 1]), (5, [1, 2]), (2, [0]), (1, [0]), (0, [])] 7 [5, 6]
      [[5, 1, 2, 0], [6, 2, 1, 0]] [] 2 rfl rfl rfl).1⟩

/-- C5: invoke scans the dynamic class's precedence sequence from index 0
and calls the first registered implementation, failing with
NoImplementationError exactly when no class in the sequence has one; next
scans the same sequence strictly forward from the cursor index plus one, and
finding nothing there is the exhausted-chain condition; a continuing chain
never produces NoImplementationError, keeping it distinct from the
unterminated-chain outcome. -/
theorem claim_C5 (R : Registry) (cn : Name → CapName → Bool) (m : CapName)
    (seq : List Name) :
    ((invoke R cn m seq).2 = Outcome.noImpl m ↔ ∀ c ∈ seq, registered R c m = false)
    ∧ (∀ j, findFrom R m seq 0 = some j →
        (invoke R cn m seq).1.head? = some (seq.getD j rootName)
        ∧ (∃ c, seq[j]? = some c ∧ registered R c m = true)
        ∧ (∀ k : Nat, k < j → ∀ c2, seq[k]? = some c2 → registered R c2 m = false))
    ∧ (∀ cur : DispatchCursor, nextFind R m cur = findFrom R m cur.seq (cur.index + 1)
        ∧ (nextFind R m cur = none ↔
            ∀ c ∈ cur.seq.drop (cur.index + 1), registered R c m = false))
    ∧ (∀ fuel i, (runFrom R cn m seq fuel i).2 ≠ Outcome.noImpl m) := by
  refine ⟨⟨?_, ?_⟩, ?_, ?_, runFrom_ne_noImpl R cn m m seq⟩
  · intro h
    cases hf : findFrom R m seq 0 with
    | none =>
      have := (findFrom_none_iff R m seq 0).mp hf
      simpa using this
    | some j =>
      exfalso
      rw [invoke_some hf] at h
      by_cases hcn : cn (seq.getD j rootName) m
      · rw [if_pos hcn] at h
        exact runFrom_ne_noImpl R cn m m seq seq.length (j + 1) h
      · rw [if_neg hcn] at h
        cases h
  · intro hall
    have hf : findFrom R m seq 0 = none := by
      rw [findFrom_none_iff]
      simpa using hall
    rw [invoke_none hf]
  · intro j hf
    obtain ⟨-, hex, hmin⟩ := findFrom_some hf
    refine ⟨?_, hex, fun k hk c2 hc2 => hmin k (Nat.zero_le k) hk c2 hc2⟩
    rw [invoke_some hf]
    by_cases hcn : cn (seq.getD j rootName) m
    · rw [if_pos hcn]; rfl
    · rw [if_neg hcn]; rfl
  · intro cur
    exact ⟨rfl, findFrom_none_iff R m cur.seq (cur.index + 1)⟩

theorem claim_C5_witness :
    findFrom regF "f" [4, 2, 3, 1, 0] 0 = some 0
    ∧ (invoke regF cnAll "f" [4, 2, 3, 1, 0]).1.head? = some 4
    ∧ ((invoke regF cnAll "f" [4, 2, 3, 1, 0]).2 = Outcome.noImpl "f" ↔
        ∀ c ∈ [4, 2, 3, 1, 0], registered regF c "f" = false) :=
  ⟨rfl, ((claim_C5 regF cnAll "f" [4, 2, 3, 1, 0]).2.1 0 rfl).1,
    (claim_C5 regF cnAll "f" [4, 2, 3, 1, 0]).1⟩

/-- C6: in the diamond A = 1, B = 2, C = 3, D = 4 over root 0, built by
declare, the precedence of D is exactly D, B, C, A, root. -/
theorem claim_C6 : (precedenceOf sDiamond 4).1 = Except.ok [4, 2, 3, 1, 0] := rfl

/-- C7: redeclaring the diamond class D with its parents swapped from (B,C)
to (C,B) flips the relative positions of B and C in the precedence of D,
while D stays first and A and root stay last. -/
theorem claim_C7 :
    (precedenceOf sDiamond 4).1 = Except.ok [4, 2, 3, 1, 0]
    ∧ (precedenceOf sSwap 4).1 = Except.ok [4, 3, 2, 1, 0] :=
  ⟨rfl, rfl⟩

/-- C8: with a consistent memo cache, computing precedenceOf twice yields
identical results, and the result is a pure function of the graph's shape:
any two states with the same graph (for example two concurrent first-time
callers' views) yield the same sequence. -/
theorem claim_C8 (s : EngineState) (c : Name) (hok : CacheOK s) :
    (precedenceOf (precedenceOf s c).2 c).1 = (precedenceOf s c).1
    ∧ ∀ s2 : EngineState, s2.graph = s.graph → CacheOK s2 →
        (precedenceOf s2 c).1 = (precedenceOf s c).1 := by
  have key : ∀ t : EngineState, t.graph = s.graph → CacheOK t →
      (precedenceOf t c).1 = (precedenceOf s c).1 := by
    intro t hg hokt
    cases hlin : linearize s.graph c with
    | some q =>
      rw [precedenceOf_of_lin_some hokt (by rw [hg]; exact hlin),
        precedenceOf_of_lin_some hok hlin]
    | none =>
      rw [precedenceOf_of_lin_none hokt (by rw [hg]; exact hlin),
        precedenceOf_of_lin_none hok hlin]
  exact ⟨key _ (precedenceOf_graph s c) (cacheOK_precedenceOf c hok), key⟩

theorem claim_C8_witness :
    (precedenceOf (precedenceOf initState 0).2 0).1 = (precedenceOf initState 0).1 :=
  (claim_C8 initState 0 (by intro e he; simp [initState] at he)).1

/-- C9: no engine operation partially mutates state on failure: a failing
declare returns the state unchanged, and a failing linearization returns the
state unchanged and leaves no cached sequence for the failed class. -/
theorem claim_C9 (s : EngineState) (c : Name) (ps : List Name) :
    (∀ e, (declare s c ps).1 = Except.error e → (declare s c ps).2 = s)
    ∧ (∀ e, (precedenceOf s c).1 = Except.error e →
        (precedenceOf s c).2 = s
        ∧ lookupCache ((precedenceOf s c).2).cache c = none) := by
  constructor
  · intro e h
    exact declare_error_state h
  · intro e h
    obtain ⟨h1, h2⟩ := precedenceOf_error_state h
    refine ⟨h1, ?_⟩
    rw [h1]
    exact h2

theorem claim_C9_witness :
    (declare initState 1 [0, 0]).1 = Except.error (EngineError.DuplicateParentError 1)
    ∧ (declare initState 1 [0, 0]).2 = initState
    ∧ (precedenceOf sZ 7).1 = Except.error (EngineError.InconsistentHierarchyError 7)
    ∧ (precedenceOf sZ 7).2 = sZ :=
  ⟨rfl, (claim_C9 initState 1 [0, 0]).1 _ rfl, rfl, ((claim_C9 sZ 7 []).2 _ rfl).1⟩

/-- C10: in any well-formed hierarchy where every class registering a
capability either is the designated chain-terminating class or inherits from
it, that class's implementation is the last one in every instance's
precedence sequence: scanning strictly forward past its position finds no
further implementation, so it can absorb the chain without calling next. -/
theorem claim_C10 (g : Graph) (R : Registry) (m : CapName) (rt D : Name)
    (seq : List Name) (k : Nat)
    (hwf : WFb g = true)
    (hreg : ∀ e ∈ R, e.2 = m → e.1 = rt ∨ rt ∈ ancestors g e.1)
    (hlin : linearize g D = some seq)
    (hk : seq[k]? = some rt) :
    findFrom R m seq (k + 1) = none := by
  rw [findFrom_none_iff]
  intro c hc
  by_contra hreg2
  have hcreg : registered R c m = true := by
    revert hreg2
    cases registered R c m <;> simp
  have hnd : seq.Nodup := lin_nodup g hwf D seq hlin
  obtain ⟨n, hn, hget⟩ := List.getElem_of_mem hc
  have hcidx : seq[k + 1 + n]? = some c := by
    have hd : (seq.drop (k + 1))[n]? = some c :=
      List.getElem?_eq_some_iff.mpr ⟨hn, hget⟩
    rwa [List.getElem?_drop] at hd
  have hex : ∃ e ∈ R, e.1 = c ∧ e.2 = m := by
    simpa [registered, List.any_eq_true] using hcreg
  obtain ⟨e, he, he1, he2⟩ := hex
  rcases hreg e he he2 with hrt | hanc
  · -- c is the terminal class itself, but it sits strictly after position k
    rw [he1] at hrt
    subst hrt
    have hkk : k + 1 + n = k := by
      have hlt : k + 1 + n < seq.length := (List.getElem?_eq_some_iff.mp hcidx).1
      apply List.get?_inj hlt hnd
      rw [List.get?_eq_getElem?, List.get?_eq_getElem?, hcidx, hk]
    omega
  · -- the terminal class is an ancestor of c, hence after c in the sequence
    rw [he1] at hanc
    have hcseq : c ∈ seq := by
      have hlt := (List.getElem?_eq_some_iff.mp hcidx).1
      have := (List.getElem?_eq_some_iff.mp hcidx).2
      exact this ▸ List.getElem_mem hlt
    have hpair : [c, rt].Sublist seq :=
      lin_before_anc g hwf D seq hlin c hcseq rt hanc
    have := before_of_pair seq hnd hpair (k + 1 + n) k hcidx hk
    omega

theorem claim_C10_witness :
    WFb gRoots = true
    ∧ (∀ e ∈ regDraw, e.2 = "draw" → e.1 = 1 ∨ 1 ∈ ancestors gRoots e.1)
    ∧ linearize gRoots 3 = some [3, 2, 1, 0]
    ∧ [3, 2, 1, 0][2]? = some 1
    ∧ findFrom regDraw "draw" [3, 2, 1, 0] 3 = none :=
  ⟨rfl, by decide, rfl, rfl,
    claim_C10 gRoots regDraw "draw" 1 3 [3, 2, 1, 0] 2 rfl (by decide) rfl rfl⟩

end SuperEngine
